import Mathlib

set_option autoImplicit false

/-!
Shallow embedding of the tx-template repository
(`A_gen_literal_po.py` and `B_gen_literal_translation.py`).

Python strings are modelled as `List Char`; the random `uuid4().hex`
generator is modelled as an explicit supply `uids : Nat → List Char`
indexed by line number; the external `antx.transfer` alignment
primitive is modelled as a function parameter; file contents are
passed explicitly.
-/

/-- Abbreviation turning a string literal into the `List Char` model. -/
def toL (s : String) : List Char := s.data

/-- Anchor delimiter used throughout `A_gen_literal_po.py`: the em dash U+2014. -/
def emDash : Char := '—'

/-- Ogham space mark U+1680, the word-separating space produced by
`segment_in_words` and normalised away before matching or export. -/
def sepSpace : Char := ' '

/-- Open box U+2423, the affixed-particle marker produced by `segment_in_words`. -/
def openBox : Char := '␣'

/-- Tibetan tsheg U+0F0B. -/
def tsheg : Char := '་'

/-- Whitespace as recognised by Python `str.strip()` with no argument
(ASCII whitespace plus the Unicode space characters). -/
def isPySpace (c : Char) : Bool :=
  c == ' ' || c == '\t' || c == '\n' ||
  (0x0b ≤ c.toNat && c.toNat ≤ 0x0d) || (0x1c ≤ c.toNat && c.toNat ≤ 0x1f) ||
  c.toNat == 0x85 || c.toNat == 0xa0 || c.toNat == 0x1680 ||
  (0x2000 ≤ c.toNat && c.toNat ≤ 0x200a) || c.toNat == 0x2028 ||
  c.toNat == 0x2029 || c.toNat == 0x202f || c.toNat == 0x205f ||
  c.toNat == 0x3000

/-- Python `s.strip()`: remove leading and trailing whitespace. -/
def pyStrip (s : List Char) : List Char :=
  ((s.dropWhile isPySpace).reverse.dropWhile isPySpace).reverse

/-- Python `s.split(c)` for a one-character separator: the list of
maximal separator-free segments, including empty ones. -/
def splitOnChar (c : Char) : List Char → List (List Char)
  | [] => [[]]
  | a :: s =>
    match splitOnChar c s with
    | [] => [[]]
    | r :: rs => if a == c then [] :: r :: rs else (a :: r) :: rs

/-- Python `c.join(ls)` for a one-character separator. -/
def joinWith (c : Char) : List (List Char) → List Char
  | [] => []
  | [l] => l
  | l :: ls => l ++ c :: joinWith c ls

/-- Python `s.count(c)` for a one-character pattern. -/
def countChar (c : Char) (s : List Char) : Nat :=
  (s.filter (· == c)).length

/-- Python `s.endswith(c)` for a one-character suffix. -/
def endsWithChar (c : Char) (s : List Char) : Bool :=
  match s.getLast? with
  | some a => a == c
  | none => false

/-- Python `s.replace(a, b)` where both `a` and `b` are single characters. -/
def charMap (a b : Char) (s : List Char) : List Char :=
  s.map (fun c => if c == a then b else c)

/-- Python `s.replace(a, glue)` where `glue` is the empty string: delete
every occurrence of the character `a`. -/
def charRemove (a : Char) (s : List Char) : List Char :=
  s.filter (fun c => !(c == a))

/-- Recursion core of `replaceSub`, structural in a fuel argument that is
kept equal to the length of the remaining string (so it never runs out). -/
def replaceSubAux (p : Char) (ps rep : List Char) : Nat → List Char → List Char
  | _, [] => []
  | 0, s => s
  | fuel + 1, a :: s =>
    if (p :: ps).isPrefixOf (a :: s) then
      rep ++ replaceSubAux p ps rep fuel (s.drop ps.length)
    else a :: replaceSubAux p ps rep fuel s

/-- Python `s.replace(pat, rep)` for a multi-character pattern
`p :: ps`: left-to-right, non-overlapping replacement. -/
def replaceSub (p : Char) (ps rep : List Char) (s : List Char) : List Char :=
  replaceSubAux p ps rep s.length s

/-- Python `pat in s` for strings: `pat` occurs contiguously in `s`. -/
def containsSub (pat : List Char) : List Char → Bool
  | [] => pat.isEmpty
  | a :: s => pat.isPrefixOf (a :: s) || containsSub pat s

/-- Record type of one `polib.POEntry` as built and read by this repository. -/
structure POEntry where
  msgid : List Char
  msgstr : List Char
  msgctxt : Option (List Char)
  comment : Option (List Char)
  tcomment : Option (List Char)
deriving DecidableEq

/-- `Po._create_entry` (A file, lines 36-52): build the `polib.POEntry`
record that is appended to the file. -/
def create_entry (msgid msgstr : List Char)
    (msgctxt comment tcomment : Option (List Char)) : POEntry :=
  { msgid := msgid, msgstr := msgstr, msgctxt := msgctxt,
    comment := comment, tcomment := tcomment }

/-- Loop body of `Transfer.add_missing_uuids` (A file, lines 141-144) for
the enumerated line `q` (index `q.1`, content `q.2`): strip the line and, if
the stripped form does not end with the delimiter, append a delimited fresh
anchor to the stripped form; otherwise keep the original entry. -/
def anchor_line (uids : Nat → List Char) (q : Nat × List Char) : List Char :=
  let l := pyStrip q.2
  if endsWithChar emDash l then q.2 else l ++ emDash :: (uids q.1 ++ [emDash])

/-- `Transfer.add_missing_uuids` (A file, lines 139-145).  The value
`uids n` models the `uuid4().hex` that `get_unique_id` returns for line
number `n`. -/
def add_missing_uuids (uids : Nat → List Char) (dump : List Char) : List Char :=
  let lines := splitOnChar '\n' (pyStrip dump)
  joinWith '\n' (lines.enum.map (anchor_line uids))

/-- `Transfer.remove_extra_uuid` (A file, lines 147-155): when a line
carries more than two delimiters, cut from the first delimiter to the
second one inclusive and strip the result. -/
def remove_extra_uuid (line : List Char) : List Char :=
  if 2 < countChar emDash line then
    let idx1 := line.findIdx (· == emDash)
    let idx2 := idx1 + 1 + (line.drop (idx1 + 1)).findIdx (· == emDash)
    pyStrip (line.take idx1 ++ line.drop (idx2 + 1))
  else line

/-- Final parse step of the `Transfer.generate_entries` loop (A file,
line 124): `txt, ctxt = line[:-1].split('—')` succeeds exactly when the
split yields two parts; any other shape raises, modelled as `none`. -/
def parse_line (line : List Char) : Option (List Char × List Char) :=
  match splitOnChar emDash line.dropLast with
  | [txt, ctxt] => some (txt, ctxt)
  | _ => none

/-- Per-line processing of `Transfer.generate_entries` before the parse
step: strip the line, then repair duplicated anchors. -/
def corrected_lines (uids : Nat → List Char) (dump : List Char) : List (List Char) :=
  (splitOnChar '\n' (pyStrip (add_missing_uuids uids dump))).map
    (fun l => remove_extra_uuid (pyStrip l))

/-- Python f-string rendering of a `msgctxt`: `None` renders as the
string `"None"`. -/
def ctxtStr (c : Option (List Char)) : List Char :=
  match c with
  | some s => s
  | none => toL "None"

/-- Per-entry reconstruction step inside `Transfer.extract_entries`
(A file, lines 131-133): normalise the persisted `msgid` and pair it
with its context. -/
def extract_pair (p : POEntry) : List Char × Option (List Char) :=
  (charMap sepSpace ' ' (charRemove ' ' p.msgid), p.msgctxt)

/-- `Transfer.extract_entries` (A file, lines 128-137): rebuild the old
synthetic document `text—ctxt—` per entry and hand it to the external
`antx.transfer` alignment primitive, modelled by the parameter `f`. -/
def extract_entries (f : List Char → List Char → List Char)
    (po : List POEntry) (dump : List Char) : List Char :=
  let po_dump := joinWith '\n' (po.map (fun p =>
    (extract_pair p).1 ++ emDash :: (ctxtStr (extract_pair p).2 ++ [emDash])))
  f po_dump dump

/-- Branch at the top of `Transfer.generate_entries` (A file, lines
115-116): the text handed to anchor assignment is the alignment
primitive's output when a persisted file exists, the raw dump otherwise. -/
def resolved_dump (f : List Char → List Char → List Char)
    (po : Option (List POEntry)) (dump : List Char) : List Char :=
  match po with
  | some entries => extract_entries f entries dump
  | none => dump

/-- `Transfer.generate_entries` (A file, lines 114-126).  `po` is the
persisted file content when it exists; `f` is the external alignment
primitive; the result is `none` when some line fails the final parse. -/
def generate_entries (f : List Char → List Char → List Char)
    (po : Option (List POEntry)) (uids : Nat → List Char) (dump : List Char) :
    Option (List (List Char × List Char)) :=
  (corrected_lines uids (resolved_dump f po dump)).mapM parse_line

/-- Normalisation applied by `Glossary.find_entries` (A file, line 184)
before matching: open boxes and ogham separators become plain spaces,
and a tsheg before a space is dropped with it into a single space. -/
def normalizeSeg (s : List Char) : List Char :=
  charMap sepSpace ' ' (replaceSub tsheg [' '] [' '] (charMap openBox ' ' s))

/-- `Glossary._find_matches` (A file, lines 187-196): for each
dictionary headword in iteration order, the `if`/`elif` chain of the
three word-boundary conditions; at most one append per headword. -/
def find_matches {α : Type} (entries : List (List Char × α)) (segment : List Char) :
    List α :=
  match entries with
  | [] => []
  | (word, e) :: rest =>
    if (word ++ [' ']).isPrefixOf segment then e :: find_matches rest segment
    else if (' ' :: word).isSuffixOf segment then e :: find_matches rest segment
    else if containsSub (' ' :: (word ++ [' '])) segment then e :: find_matches rest segment
    else find_matches rest segment

/-- `Glossary.find_entries` (A file, lines 183-185). -/
def find_entries {α : Type} (entries : List (List Char × α)) (segment : List Char) :
    List α :=
  find_matches entries (normalizeSeg segment)

/-- Disjunction of the three word-boundary conditions of
`Glossary._find_matches`, naming the headwords that are matched at all. -/
def match_any (word segment : List Char) : Bool :=
  (word ++ [' ']).isPrefixOf segment || (' ' :: word).isSuffixOf segment ||
    containsSub (' ' :: (word ++ [' '])) segment

/-- Lowercase hexadecimal digit: the alphabet of `uuid4().hex`, whose
output `get_unique_id` returns verbatim. -/
def isHexDigit (c : Char) : Bool :=
  ('0' ≤ c && c ≤ '9') || ('a' ≤ c && c ≤ 'f')

/-- Text normalisation inside `Po.format_entries` (B file, lines 16-18):
ASCII spaces and open boxes are removed, ogham separators and newlines
become plain spaces. -/
def fmt_text (m : List Char) : List Char :=
  charMap '\n' ' ' (charMap sepSpace ' ' (charRemove openBox (charRemove ' ' m)))

/-- `Po.format_entries` (B file, lines 13-23): the three derived
plain-text exports, in entry order. -/
def format_entries (file : List POEntry) :
    List Char × List Char × List Char :=
  let entries := file.map (fun e => (fmt_text e.msgid, e.msgstr))
  (joinWith '\n' (entries.map (fun e => e.1 ++ '\n' :: '\t' :: e.2)),
   joinWith '\n' (entries.map (fun e => pyStrip e.2)),
   joinWith '\n' (entries.map (fun e => e.2 ++ '\n' :: '\t' :: e.1)))

/-- `Po._update_pars` (B file, lines 44-49): run the external transfer
primitive `f` on the paragraph pattern, then collapse any quadruple
newline into a triple one. -/
def update_pars (f : List Char → List Char → List Char)
    (source target : List Char) : List Char :=
  replaceSub '\n' (toL "\n\n\n") (toL "\n\n\n") (f source target)

/-- Python `s.replace(tripleNewline, newline)` as used in `Po.write_txt`
(B file, line 40) to compare the stored paragraph copy with the export. -/
def collapse_pars (s : List Char) : List Char :=
  replaceSub '\n' (toL "\n\n") (toL "\n") s

/-- Paragraph-copy branch of `Po.write_txt` (B file, lines 34-42), with
the file system made explicit: `parsExists` says whether the copy file
exists, `parsOld` is its current content, and the result is its content
after `write_txt` returns. -/
def write_txt_pars (f : List Char → List Char → List Char) (parsExists : Bool)
    (parsOld parsTrans origTrans : List Char) : List Char :=
  if !parsExists then parsTrans
  else if collapse_pars parsOld ≠ origTrans then update_pars f parsOld origTrans
  else parsOld

/-! General lemmas about the string model. -/

theorem splitOnChar_ne_nil (c : Char) (s : List Char) : splitOnChar c s ≠ [] := by
  cases s with
  | nil => simp [splitOnChar]
  | cons a s =>
    simp only [splitOnChar]
    split
    · simp
    · split <;> simp

theorem splitOnChar_cons_self (c : Char) (s : List Char) :
    splitOnChar c (c :: s) = [] :: splitOnChar c s := by
  simp only [splitOnChar]
  cases h : splitOnChar c s with
  | nil => exact absurd h (splitOnChar_ne_nil c s)
  | cons r rs => simp

theorem splitOnChar_cons_ne {c a : Char} (h : a ≠ c) (s : List Char)
    (r : List Char) (rs : List (List Char)) (hs : splitOnChar c s = r :: rs) :
    splitOnChar c (a :: s) = (a :: r) :: rs := by
  simp only [splitOnChar, hs]
  simp [beq_iff_eq, h]

theorem joinWith_cons₂ (c : Char) (l r : List Char) (rs : List (List Char)) :
    joinWith c (l :: r :: rs) = l ++ c :: joinWith c (r :: rs) := rfl

theorem joinWith_splitOnChar (c : Char) (s : List Char) :
    joinWith c (splitOnChar c s) = s := by
  induction s with
  | nil => rfl
  | cons a s ih =>
    by_cases hac : a = c
    · subst hac
      rw [splitOnChar_cons_self]
      cases h : splitOnChar a s with
      | nil => exact absurd h (splitOnChar_ne_nil a s)
      | cons r rs =>
        rw [h] at ih
        rw [joinWith_cons₂]
        simpa using ih
    · cases h : splitOnChar c s with
      | nil => exact absurd h (splitOnChar_ne_nil c s)
      | cons r rs =>
        rw [h] at ih
        rw [splitOnChar_cons_ne hac s r rs h]
        cases rs with
        | nil =>
          simp only [joinWith] at ih ⊢
          rw [ih]
        | cons r2 rs2 =>
          rw [joinWith_cons₂] at ih ⊢
          simp only [List.cons_append]
          rw [ih]

theorem splitOnChar_append_left {c : Char} :
    ∀ (a s : List Char), c ∉ a →
    ∀ (r : List Char) (rs : List (List Char)), splitOnChar c s = r :: rs →
    splitOnChar c (a ++ s) = (a ++ r) :: rs
  | [], s, _, r, rs, hs => by simpa using hs
  | x :: a, s, hmem, r, rs, hs => by
    have hx : x ≠ c := fun h => hmem (h ▸ List.mem_cons_self x a)
    have ih := splitOnChar_append_left a s
      (fun h => hmem (List.mem_cons_of_mem x h)) r rs hs
    rw [List.cons_append, splitOnChar_cons_ne hx _ _ _ ih]
    simp

theorem splitOnChar_of_not_mem {c : Char} : ∀ {s : List Char}, c ∉ s →
    splitOnChar c s = [s]
  | [], _ => rfl
  | a :: s, h => by
    have ih := @splitOnChar_of_not_mem c s (fun hm => h (List.mem_cons_of_mem a hm))
    have ha : a ≠ c := fun he => h (he ▸ List.mem_cons_self a s)
    exact splitOnChar_cons_ne ha s s [] ih

theorem splitOnChar_joinWith {c : Char} : ∀ (L : List (List Char)), L ≠ [] →
    (∀ l ∈ L, c ∉ l) → splitOnChar c (joinWith c L) = L
  | [], h, _ => absurd rfl h
  | [l], _, hc => by
    simp only [joinWith]
    exact splitOnChar_of_not_mem (hc l (by simp))
  | l :: r :: rs, _, hc => by
    have ih := splitOnChar_joinWith (r :: rs) (by simp)
      (fun x hx => hc x (List.mem_cons_of_mem _ hx))
    have h2 : splitOnChar c (c :: joinWith c (r :: rs)) = [] :: r :: rs := by
      rw [splitOnChar_cons_self, ih]
    have h3 := splitOnChar_append_left l (c :: joinWith c (r :: rs))
      (hc l (List.mem_cons_self l _)) [] (r :: rs) h2
    rw [joinWith_cons₂, h3]
    simp

theorem not_mem_of_mem_splitOnChar {c : Char} : ∀ {s l : List Char},
    l ∈ splitOnChar c s → c ∉ l
  | [], l, h => by
    simp [splitOnChar] at h
    subst h; simp
  | a :: s, l, h => by
    by_cases hac : a = c
    · subst hac
      rw [splitOnChar_cons_self] at h
      rcases List.mem_cons.mp h with h1 | h2
      · subst h1; simp
      · exact not_mem_of_mem_splitOnChar h2
    · cases hs : splitOnChar c s with
      | nil => exact absurd hs (splitOnChar_ne_nil c s)
      | cons r rs =>
        rw [splitOnChar_cons_ne hac s r rs hs] at h
        have hr : r ∈ splitOnChar c s := by rw [hs]; exact List.mem_cons_self r rs
        rcases List.mem_cons.mp h with h1 | h2
        · subst h1
          intro hm
          rcases List.mem_cons.mp hm with h3 | h4
          · exact hac h3.symm
          · exact not_mem_of_mem_splitOnChar hr h4
        · have : l ∈ splitOnChar c s := by rw [hs]; exact List.mem_cons_of_mem r h2
          exact not_mem_of_mem_splitOnChar this

theorem dropWhile_eq_self_of_head? {α : Type} {p : α → Bool} {l : List α}
    (h : ∀ a, l.head? = some a → p a = false) : l.dropWhile p = l := by
  cases l with
  | nil => rfl
  | cons a t => exact List.dropWhile_cons_of_neg (by simp [h a rfl])

theorem head?_dropWhile_false {α : Type} (p : α → Bool) (l : List α)
    {a : α} (ha : (l.dropWhile p).head? = some a) : p a = false := by
  have h := List.head?_dropWhile_not p l
  rw [ha] at h
  exact h

theorem pyStrip_eq_self {s : List Char}
    (h1 : ∀ a, s.head? = some a → isPySpace a = false)
    (h2 : ∀ a, s.getLast? = some a → isPySpace a = false) :
    pyStrip s = s := by
  unfold pyStrip
  rw [dropWhile_eq_self_of_head? h1,
    dropWhile_eq_self_of_head? (fun a ha => h2 a (by rwa [List.head?_reverse] at ha)),
    List.reverse_reverse]

theorem head?_pyStrip_false {s : List Char} {a : Char}
    (ha : (pyStrip s).head? = some a) : isPySpace a = false := by
  unfold pyStrip at ha
  cases hrd : (s.dropWhile isPySpace).reverse.dropWhile isPySpace with
  | nil => rw [hrd] at ha; simp at ha
  | cons b u =>
    rw [hrd] at ha
    have hsuf : b :: u <:+ (s.dropWhile isPySpace).reverse := by
      rw [← hrd]; exact List.dropWhile_suffix isPySpace
    have hpre : (b :: u).reverse <+: s.dropWhile isPySpace := by
      have := hsuf.reverse
      rwa [List.reverse_reverse] at this
    obtain ⟨t, ht⟩ := hpre
    rcases hr : (b :: u).reverse with _ | ⟨x, xs⟩
    · exact absurd hr (by simp)
    · rw [hr] at ht ha
      have hx : (s.dropWhile isPySpace).head? = some x := by
        rw [← ht]; rfl
      have hax : a = x := by
        simpa using ha.symm
      exact hax ▸ head?_dropWhile_false isPySpace s hx

theorem getLast?_pyStrip_false {s : List Char} {a : Char}
    (ha : (pyStrip s).getLast? = some a) : isPySpace a = false := by
  unfold pyStrip at ha
  rw [List.getLast?_reverse] at ha
  exact head?_dropWhile_false isPySpace (s.dropWhile isPySpace).reverse ha

theorem pyStrip_idem (s : List Char) : pyStrip (pyStrip s) = pyStrip s :=
  pyStrip_eq_self (fun _ h => head?_pyStrip_false h) (fun _ h => getLast?_pyStrip_false h)

theorem pyStrip_append_single {c : Char} (hc : isPySpace c = false) (t : List Char) :
    pyStrip (t ++ [c]) = t.dropWhile isPySpace ++ [c] := by
  have key : (t ++ [c]).dropWhile isPySpace = t.dropWhile isPySpace ++ [c] := by
    rw [List.dropWhile_append]
    split
    · next he =>
      rw [List.isEmpty_iff] at he
      rw [he, List.dropWhile_cons_of_neg (by simp [hc]), List.nil_append]
    · rfl
  unfold pyStrip
  rw [key, List.reverse_append]
  simp only [List.reverse_cons, List.reverse_nil, List.nil_append, List.singleton_append]
  rw [List.dropWhile_cons_of_neg (by simp [hc])]
  simp

theorem endsWithChar_iff {c : Char} {s : List Char} :
    endsWithChar c s = true ↔ ∃ t, s = t ++ [c] := by
  constructor
  · intro h
    unfold endsWithChar at h
    cases hl : s.getLast? with
    | none => rw [hl] at h; simp at h
    | some a =>
      rw [hl] at h
      have hac : a = c := by simpa using h
      refine ⟨s.dropLast, ?_⟩
      rw [← hac]
      exact (List.dropLast_append_getLast? a hl).symm
  · rintro ⟨t, rfl⟩
    unfold endsWithChar
    rw [List.getLast?_concat]
    simp

theorem countChar_append (c : Char) (a b : List Char) :
    countChar c (a ++ b) = countChar c a + countChar c b := by
  unfold countChar
  rw [List.filter_append, List.length_append]

theorem countChar_cons (c a : Char) (s : List Char) :
    countChar c (a :: s) = (if a = c then 1 else 0) + countChar c s := by
  unfold countChar
  by_cases h : a = c <;> simp [h, List.filter_cons, Nat.add_comm]

theorem countChar_eq_zero {c : Char} {s : List Char} (h : c ∉ s) :
    countChar c s = 0 := by
  unfold countChar
  rw [List.length_eq_zero, List.filter_eq_nil_iff]
  intro a ha
  simp only [beq_iff_eq]
  exact fun he => h (he ▸ ha)

theorem countChar_dropWhile {c : Char} (hc : isPySpace c = false) (s : List Char) :
    countChar c (s.dropWhile isPySpace) = countChar c s := by
  induction s with
  | nil => rfl
  | cons a t ih =>
    by_cases hp : isPySpace a
    · rw [List.dropWhile_cons_of_pos hp, ih, countChar_cons]
      have hac : ¬ a = c := fun he => by rw [he, hc] at hp; cases hp
      simp [hac]
    · rw [List.dropWhile_cons_of_neg hp]

theorem countChar_reverse (c : Char) (s : List Char) :
    countChar c s.reverse = countChar c s := by
  unfold countChar
  rw [List.filter_reverse, List.length_reverse]

theorem countChar_pyStrip {c : Char} (hc : isPySpace c = false) (s : List Char) :
    countChar c (pyStrip s) = countChar c s := by
  unfold pyStrip
  rw [countChar_reverse, countChar_dropWhile hc, countChar_reverse,
    countChar_dropWhile hc]

theorem mem_dropWhile_imp {α : Type} {p : α → Bool} {a : α} {l : List α}
    (h : a ∈ l.dropWhile p) : a ∈ l := by
  obtain ⟨t, ht⟩ := (List.dropWhile_suffix p : l.dropWhile p <:+ l)
  rw [← ht]
  exact List.mem_append_right t h

theorem mem_pyStrip {a : Char} {s : List Char} (h : a ∈ pyStrip s) : a ∈ s := by
  unfold pyStrip at h
  rw [List.mem_reverse] at h
  have h2 := mem_dropWhile_imp h
  rw [List.mem_reverse] at h2
  exact mem_dropWhile_imp h2

theorem endsWithChar_append_self (c : Char) (t : List Char) :
    endsWithChar c (t ++ [c]) = true :=
  endsWithChar_iff.mpr ⟨t, rfl⟩

theorem endsWithChar_eq_false_of_not_mem {c : Char} {s : List Char} (h : c ∉ s) :
    endsWithChar c s = false := by
  cases he : endsWithChar c s
  · rfl
  · obtain ⟨t, rfl⟩ := endsWithChar_iff.mp he
    exact absurd (List.mem_append_right t (List.mem_singleton_self c)) h

theorem dropWhile_append_of_ne {α : Type} {p : α → Bool} {l : List α} (t : List α)
    (h : ∃ a ∈ l, p a = false) : (l ++ t).dropWhile p = l.dropWhile p ++ t := by
  rw [List.dropWhile_append]
  split
  · next he =>
    rw [List.isEmpty_iff, List.dropWhile_eq_nil_iff] at he
    obtain ⟨a, ha, hpa⟩ := h
    rw [he a ha] at hpa
    cases hpa
  · rfl

theorem findIdx_append_cons {α : Type} {p : α → Bool} :
    ∀ (l : List α), (∀ x ∈ l, p x = false) → ∀ (b : α), p b = true → ∀ (t : List α),
    (l ++ b :: t).findIdx p = l.length
  | [], _, b, hb, t => by simp [List.findIdx_cons, hb]
  | x :: l, h, b, hb, t => by
    have hx := h x (List.mem_cons_self x l)
    have ih := findIdx_append_cons l (fun y hy => h y (List.mem_cons_of_mem x hy)) b hb t
    simp [List.findIdx_cons, hx, ih]

theorem map_enumFrom_eq_self {α : Type} (f : Nat × α → α) :
    ∀ (l : List α) (n : Nat), (∀ q ∈ l.enumFrom n, f q = q.2) →
    (l.enumFrom n).map f = l
  | [], _, _ => rfl
  | a :: l, n, h => by
    rw [List.enumFrom_cons]
    simp only [List.map_cons]
    rw [h (n, a) (by rw [List.enumFrom_cons]; exact List.mem_cons_self _ _),
      map_enumFrom_eq_self f l (n + 1)
        (fun q hq => h q (by rw [List.enumFrom_cons]; exact List.mem_cons_of_mem _ hq))]

theorem snd_mem_of_mem_enumFrom {α : Type} :
    ∀ {l : List α} {n : Nat} {q : Nat × α}, q ∈ l.enumFrom n → q.2 ∈ l
  | [], _, q, h => by simp at h
  | a :: l, n, q, h => by
    rw [List.enumFrom_cons] at h
    rcases List.mem_cons.mp h with h1 | h2
    · subst h1; exact List.mem_cons_self a l
    · exact List.mem_cons_of_mem a (snd_mem_of_mem_enumFrom h2)

theorem beq_false_of_not_mem {c : Char} {l : List Char} (h : c ∉ l) :
    ∀ x ∈ l, (x == c) = false := by
  intro x hx
  rw [beq_eq_false_iff_ne]
  exact fun he => h (he ▸ hx)

theorem not_isPrefixOf_append_self (w : List Char) (x : Char) :
    (w ++ [x]).isPrefixOf w = false := by
  cases h : (w ++ [x]).isPrefixOf w
  · rfl
  · rw [List.isPrefixOf_iff_prefix] at h
    have hlen := h.length_le
    simp only [List.length_append, List.length_cons, List.length_nil] at hlen
    omega

theorem not_isSuffixOf_cons_self (w : List Char) (x : Char) :
    (x :: w).isSuffixOf w = false := by
  cases h : (x :: w).isSuffixOf w
  · rfl
  · rw [List.isSuffixOf_iff_suffix] at h
    have hlen := h.length_le
    simp only [List.length_cons] at hlen
    omega

theorem length_le_of_containsSub {pat : List Char} :
    ∀ {s : List Char}, containsSub pat s = true → pat.length ≤ s.length
  | [], h => by
    unfold containsSub at h
    rw [List.isEmpty_iff] at h
    simp [h]
  | a :: s, h => by
    unfold containsSub at h
    simp only [Bool.or_eq_true] at h
    rcases h with h1 | h2
    · rw [List.isPrefixOf_iff_prefix] at h1
      exact h1.length_le
    · exact Nat.le_succ_of_le (length_le_of_containsSub h2)

theorem not_containsSub_pad (w : List Char) (x y : Char) :
    containsSub (x :: (w ++ [y])) w = false := by
  cases h : containsSub (x :: (w ++ [y])) w
  · rfl
  · have hlen := length_le_of_containsSub h
    simp only [List.length_cons, List.length_append, List.length_nil] at hlen
    omega

theorem find_matches_self_eq_nil {α : Type} (w : List Char) :
    ∀ (entries : List (List Char × α)), (∀ q ∈ entries, q.1 = w) →
    find_matches entries w = []
  | [], _ => rfl
  | (word, e) :: rest, hw => by
    have hq : word = w := hw (word, e) (List.mem_cons_self _ _)
    subst hq
    have ihr := find_matches_self_eq_nil word rest
      (fun p hp => hw p (List.mem_cons_of_mem _ hp))
    unfold find_matches
    simp [not_isPrefixOf_append_self, not_isSuffixOf_cons_self, not_containsSub_pad, ihr]

/-- C6: for a dictionary containing headword "blue", `find_entries` returns
the blue entry on "the blue sky" (the interior condition holds there), on
"blue sky" (the left-anchored condition holds), and on "sky blue" (the
right-anchored condition holds), and returns no match on "lightblue sky",
where "blue" occurs at no word boundary. -/
theorem C6_match_boundary_correctness :
    find_entries [(toL "blue", 0)] (toL "the blue sky") = [0] ∧
    containsSub (' ' :: (toL "blue" ++ [' '])) (toL "the blue sky") = true ∧
    find_entries [(toL "blue", 0)] (toL "blue sky") = [0] ∧
    (toL "blue" ++ [' ']).isPrefixOf (toL "blue sky") = true ∧
    find_entries [(toL "blue", 0)] (toL "sky blue") = [0] ∧
    (' ' :: toL "blue").isSuffixOf (toL "sky blue") = true ∧
    find_entries [(toL "blue", 0)] (toL "lightblue sky") = [] := by
  decide

/-- C9: when the normalised segmented line is exactly a headword `w`, with no
surrounding spaces, `find_entries` returns no match for `w` (stated for a
dictionary whose entries all carry the headword `w`): each of the three
conditions of `_find_matches` requires a space adjacent to the headword. -/
theorem C9_exact_headword_no_match {α : Type} (entries : List (List Char × α))
    (w s : List Char) (hw : ∀ q ∈ entries, q.1 = w) (hn : normalizeSeg s = w) :
    find_entries entries s = [] := by
  unfold find_entries
  rw [hn]
  exact find_matches_self_eq_nil w entries hw

theorem C9_exact_headword_no_match_witness :
    find_entries [(toL "blue", 0)] (toL "blue") = ([] : List Nat) :=
  C9_exact_headword_no_match [(toL "blue", 0)] (toL "blue") (toL "blue")
    (by decide) (by decide)

/-- C10: when the paragraph copy exists, `write_txt` leaves its content
unchanged exactly when the stored copy with triple newlines collapsed to
single newlines equals the fresh line-plus-translation export, and rewrites
it through `_update_pars` when the two differ. -/
theorem C10_write_txt_pars_frame (f : List Char → List Char → List Char)
    (parsOld parsTrans origTrans : List Char) :
    (collapse_pars parsOld = origTrans →
      write_txt_pars f true parsOld parsTrans origTrans = parsOld) ∧
    (collapse_pars parsOld ≠ origTrans →
      write_txt_pars f true parsOld parsTrans origTrans =
        update_pars f parsOld origTrans) := by
  constructor
  · intro h
    unfold write_txt_pars
    simp [h]
  · intro h
    unfold write_txt_pars
    simp [h]

theorem countChar_nil (c : Char) : countChar c [] = 0 := rfl

theorem countChar_single_self (c : Char) : countChar c [c] = 1 := by
  rw [countChar_cons c c []]
  simp [countChar_nil]

theorem emDash_not_space : isPySpace emDash = false := by decide

theorem remove_extra_uuid_stacked (pre a mid b : List Char)
    (hpre : emDash ∉ pre) (ha : emDash ∉ a) (hmid : emDash ∉ mid) (hb : emDash ∉ b) :
    remove_extra_uuid (pre ++ emDash :: (a ++ emDash :: (mid ++ emDash :: (b ++ [emDash])))) =
      pyStrip ((pre ++ mid) ++ emDash :: (b ++ [emDash])) := by
  set L := pre ++ emDash :: (a ++ emDash :: (mid ++ emDash :: (b ++ [emDash]))) with hL
  have hem : (emDash == emDash) = true := by simp
  have hcount : countChar emDash L = 4 := by
    rw [hL]
    simp [countChar_append, countChar_cons, countChar_nil, countChar_eq_zero hpre,
      countChar_eq_zero ha, countChar_eq_zero hmid, countChar_eq_zero hb]
  have hidx1 : L.findIdx (· == emDash) = pre.length := by
    rw [hL]
    exact findIdx_append_cons pre (beq_false_of_not_mem hpre) emDash hem _
  have hdrop1 : L.drop (pre.length + 1) =
      a ++ emDash :: (mid ++ emDash :: (b ++ [emDash])) := by
    rw [hL]
    have hsh : pre ++ emDash :: (a ++ emDash :: (mid ++ emDash :: (b ++ [emDash]))) =
        (pre ++ [emDash]) ++ (a ++ emDash :: (mid ++ emDash :: (b ++ [emDash]))) := by
      simp
    rw [hsh]
    exact List.drop_left' (by simp)
  have hidx2 : (a ++ emDash :: (mid ++ emDash :: (b ++ [emDash]))).findIdx (· == emDash) =
      a.length :=
    findIdx_append_cons a (beq_false_of_not_mem ha) emDash hem _
  have htake : L.take pre.length = pre := by
    rw [hL]
    exact List.take_left pre _
  have hdrop2 : L.drop (pre.length + 1 + a.length + 1) =
      mid ++ emDash :: (b ++ [emDash]) := by
    rw [hL]
    have hsh : pre ++ emDash :: (a ++ emDash :: (mid ++ emDash :: (b ++ [emDash]))) =
        ((pre ++ [emDash]) ++ (a ++ [emDash])) ++ (mid ++ emDash :: (b ++ [emDash])) := by
      simp
    rw [hsh]
    apply List.drop_left'
    simp only [List.length_append, List.length_cons, List.length_nil]
    omega
  simp only [remove_extra_uuid]
  rw [hcount, if_pos (by omega : 2 < 4), hidx1, hdrop1, hidx2, htake, hdrop2]
  simp [List.append_assoc]

/-- C2: a line with at most two anchor delimiters passes through
`remove_extra_uuid` unchanged; a line carrying two stacked delimiter-bounded
anchors loses its first anchor segment, keeps the last, and the result has
exactly two delimiters, i.e. one anchor. -/
theorem C2_remove_extra_uuid_cases (line pre a mid b : List Char)
    (hcl : countChar emDash line ≤ 2)
    (hpre : emDash ∉ pre) (ha : emDash ∉ a) (hmid : emDash ∉ mid) (hb : emDash ∉ b) :
    remove_extra_uuid line = line ∧
    remove_extra_uuid (pre ++ emDash :: (a ++ emDash :: (mid ++ emDash :: (b ++ [emDash])))) =
      pyStrip ((pre ++ mid) ++ emDash :: (b ++ [emDash])) ∧
    countChar emDash (remove_extra_uuid
      (pre ++ emDash :: (a ++ emDash :: (mid ++ emDash :: (b ++ [emDash]))))) = 2 := by
  refine ⟨?_, remove_extra_uuid_stacked pre a mid b hpre ha hmid hb, ?_⟩
  · simp only [remove_extra_uuid]
    rw [if_neg (by omega)]
  · rw [remove_extra_uuid_stacked pre a mid b hpre ha hmid hb,
      countChar_pyStrip emDash_not_space]
    simp [countChar_append, countChar_cons, countChar_nil,
      countChar_eq_zero hpre, countChar_eq_zero hmid, countChar_eq_zero hb]

theorem C2_remove_extra_uuid_cases_witness :
    remove_extra_uuid (toL "x—y—") = toL "x—y—" ∧
    remove_extra_uuid (toL "t" ++ emDash :: (toL "old" ++ emDash ::
      (toL "" ++ emDash :: (toL "new" ++ [emDash])))) =
      pyStrip ((toL "t" ++ toL "") ++ emDash :: (toL "new" ++ [emDash])) ∧
    countChar emDash (remove_extra_uuid (toL "t" ++ emDash :: (toL "old" ++ emDash ::
      (toL "" ++ emDash :: (toL "new" ++ [emDash]))))) = 2 :=
  C2_remove_extra_uuid_cases (toL "x—y—") (toL "t") (toL "old") (toL "") (toL "new")
    (by decide) (by decide) (by decide) (by decide) (by decide)

/-- C3 counterexample: for headword "a" and segment "a x a b" both the
left-anchored and the interior condition hold, yet `_find_matches` appends
the entry once in total, not once per occurrence per satisfied condition. -/
theorem C3_counterexample_single_append :
    (toL "a" ++ [' ']).isPrefixOf (toL "a x a b") = true ∧
    containsSub (' ' :: (toL "a" ++ [' '])) (toL "a x a b") = true ∧
    find_matches [(toL "a", 0)] (toL "a x a b") = [0] ∧
    find_matches [(toL "a", 0)] (toL "a x a b") ≠ [0, 0] := by
  decide

/-- C3 (amended): the three conditions are evaluated as an if/elif chain in
dictionary iteration order, so each headword is appended at most once per
line, exactly when at least one of the three conditions holds; occurrences
and multiply-satisfied conditions do not produce further copies. -/
theorem C3_find_matches_first_condition {α : Type}
    (entries : List (List Char × α)) (s : List Char) :
    find_matches entries s = (entries.filter (fun q => match_any q.1 s)).map Prod.snd := by
  induction entries with
  | nil => rfl
  | cons q rest ih =>
    obtain ⟨word, e⟩ := q
    unfold find_matches
    by_cases h1 : (word ++ [' ']).isPrefixOf s
    · simp [List.filter_cons, match_any, h1, ih]
    · by_cases h2 : (' ' :: word).isSuffixOf s
      · simp [List.filter_cons, match_any, h1, h2, ih]
      · by_cases h3 : containsSub (' ' :: (word ++ [' '])) s
        · simp [List.filter_cons, match_any, h1, h2, h3, ih]
        · simp [List.filter_cons, match_any, h1, h2, h3, ih]

theorem charRemove_eq_self {a : Char} {s : List Char} (h : a ∉ s) :
    charRemove a s = s := by
  unfold charRemove
  rw [List.filter_eq_self]
  intro x hx
  simp only [Bool.not_eq_eq_eq_not, Bool.not_true, beq_eq_false_iff_ne]
  exact fun he => h (he ▸ hx)

theorem charMap_eq_self {a b : Char} {s : List Char} (h : a ∉ s) :
    charMap a b s = s := by
  unfold charMap
  have hcong : ∀ x ∈ s, (if x == a then b else x) = x := by
    intro x hx
    have hxa : (x == a) = false := by
      rw [beq_eq_false_iff_ne]
      exact fun he => h (he ▸ hx)
    rw [hxa]
    simp
  rw [List.map_congr_left hcong, List.map_id']

/-- C7 counterexample: the reconstruction step of `extract_entries` removes
every ASCII space from the persisted msgid, so a unit assembled from the text
"a b" deserializes to the different text "ab": the round trip does not
reproduce the (text, context) pair for every triple. -/
theorem C7_counterexample_space_text :
    extract_pair (create_entry (toL "a b") [] (some (toL "c")) none (some (toL "n"))) =
      (toL "ab", some (toL "c")) ∧
    toL "ab" ≠ toL "a b" := by
  decide

/-- C7 (amended): for every (text, context, comment) triple whose text
contains neither an ASCII space nor the ogham separator (the two characters
normalised by the reconstruction step), assembling the unit and reading it
back through `extract_pair` reproduces the same (text, context) pair, and the
translation field of the freshly created unit is empty. -/
theorem C7_round_trip (text ctxt comment : List Char)
    (h1 : ' ' ∉ text) (h2 : sepSpace ∉ text) :
    extract_pair (create_entry text [] (some ctxt) none (some comment)) =
      (text, some ctxt) ∧
    (create_entry text [] (some ctxt) none (some comment)).msgstr = [] := by
  constructor
  · unfold extract_pair create_entry
    simp only
    rw [charRemove_eq_self h1, charMap_eq_self h2]
  · rfl

theorem C7_round_trip_witness :
    extract_pair (create_entry (toL "xy") [] (some (toL "c")) none (some (toL "n"))) =
      (toL "xy", some (toL "c")) ∧
    (create_entry (toL "xy") [] (some (toL "c")) none (some (toL "n"))).msgstr = [] :=
  C7_round_trip (toL "xy") (toL "c") (toL "n") (by decide) (by decide)

theorem not_mem_charMap_self {a b : Char} (hab : b ≠ a) (s : List Char) :
    a ∉ charMap a b s := by
  unfold charMap
  intro h
  rcases List.mem_map.mp h with ⟨x, _, hfx⟩
  by_cases hx : (x == a) = true
  · rw [if_pos hx] at hfx
    exact hab hfx
  · rw [if_neg hx] at hfx
    exact hx (by simp [hfx])

theorem joinWith_single (c : Char) (l : List Char) : joinWith c [l] = l := rfl

theorem joinWith_append (c : Char) :
    ∀ (L1 L2 : List (List Char)), L1 ≠ [] → L2 ≠ [] →
    joinWith c (L1 ++ L2) = joinWith c L1 ++ c :: joinWith c L2
  | [], _, h, _ => absurd rfl h
  | [l], L2, _, h2 => by
    cases L2 with
    | nil => exact absurd rfl h2
    | cons y L2 =>
      rw [List.singleton_append, joinWith_cons₂, joinWith_single]
  | l :: m :: L1, L2, _, h2 => by
    have ih := joinWith_append c (m :: L1) L2 (by simp) h2
    simp only [List.cons_append] at ih ⊢
    rw [joinWith_cons₂ c l m (L1 ++ L2), joinWith_cons₂ c l m L1, ih]
    simp [List.append_assoc]

theorem flatMap_pair_ne_nil {α : Type} (f g : α → List Char) :
    ∀ {l : List α}, l ≠ [] → l.flatMap (fun e => [f e, g e]) ≠ []
  | [], h => absurd rfl h
  | x :: l, _ => by simp [List.flatMap_cons]

theorem joinWith_map_pair {α : Type} (c : Char) (f g : α → List Char) :
    ∀ (l : List α),
    joinWith c (l.map (fun e => f e ++ c :: g e)) =
      joinWith c (l.flatMap (fun e => [f e, g e]))
  | [] => rfl
  | [x] => by
    simp only [List.map_cons, List.map_nil, List.flatMap_cons, List.flatMap_nil,
      List.append_nil]
    rw [joinWith_single, joinWith_cons₂, joinWith_single]
  | x :: y :: l => by
    have ih := joinWith_map_pair c f g (y :: l)
    simp only [List.map_cons, List.flatMap_cons] at ih ⊢
    rw [joinWith_cons₂, ih,
      joinWith_append c [f x, g x] _ (by simp) (by simp),
      joinWith_cons₂, joinWith_single]

theorem splitOnChar_joinWith_pairs {α : Type} (c : Char) (f g : α → List Char)
    (l : List α) (hne : l ≠ []) (hf : ∀ e ∈ l, c ∉ f e) (hg : ∀ e ∈ l, c ∉ g e) :
    splitOnChar c (joinWith c (l.map (fun e => f e ++ c :: g e))) =
      l.flatMap (fun e => [f e, g e]) := by
  rw [joinWith_map_pair]
  apply splitOnChar_joinWith
  · exact flatMap_pair_ne_nil f g hne
  · intro x hx
    rcases List.mem_flatMap.mp hx with ⟨e, he, hxe⟩
    rcases List.mem_cons.mp hxe with h1 | h1'
    · rw [h1]; exact hf e he
    · rcases List.mem_cons.mp h1' with h2 | h3
      · rw [h2]; exact hg e he
      · simp at h3

/-- C8: for every nonempty collection of units whose translations contain no
newline, `format_entries` yields exactly three plain-text exports whose lines
are, in unit order: the normalised line followed by a tab-indented
translation; the stripped translations, one per unit; and the translation
followed by the tab-indented line. -/
theorem C8_format_entries_exports (file : List POEntry) (hne : file ≠ [])
    (hstr : ∀ e ∈ file, '\n' ∉ e.msgstr) :
    splitOnChar '\n' (format_entries file).1 =
      file.flatMap (fun e => [fmt_text e.msgid, '\t' :: e.msgstr]) ∧
    splitOnChar '\n' (format_entries file).2.1 =
      file.map (fun e => pyStrip e.msgstr) ∧
    splitOnChar '\n' (format_entries file).2.2 =
      file.flatMap (fun e => [e.msgstr, '\t' :: fmt_text e.msgid]) := by
  have hnlid : ∀ m : List Char, '\n' ∉ fmt_text m := fun m => by
    unfold fmt_text
    exact not_mem_charMap_self (by decide) _
  refine ⟨?_, ?_, ?_⟩
  · have h := splitOnChar_joinWith_pairs '\n' (fun e : POEntry => fmt_text e.msgid)
      (fun e => '\t' :: e.msgstr) file hne (fun e _ => hnlid e.msgid)
      (fun e he hmem => by
        rcases List.mem_cons.mp hmem with h1 | h2
        · exact absurd h1 (by decide)
        · exact hstr e he h2)
    simp only [format_entries, List.map_map]
    simpa [Function.comp] using h
  · simp only [format_entries, List.map_map]
    have h := @splitOnChar_joinWith '\n'
      (file.map (fun e => pyStrip e.msgstr))
      (fun hmap => hne (by simpa using hmap))
      (fun x hx => by
        rcases List.mem_map.mp hx with ⟨e, he, hxe⟩
        rw [← hxe]
        exact fun hmem => hstr e he (mem_pyStrip hmem))
    simpa [Function.comp] using h
  · have h := splitOnChar_joinWith_pairs '\n' (fun e : POEntry => e.msgstr)
      (fun e => '\t' :: fmt_text e.msgid) file hne (fun e he => hstr e he)
      (fun e _ hmem => by
        rcases List.mem_cons.mp hmem with h1 | h2
        · exact absurd h1 (by decide)
        · exact hnlid e.msgid h2)
    simp only [format_entries, List.map_map]
    simpa [Function.comp] using h

theorem C8_format_entries_exports_witness :
    splitOnChar '\n' (format_entries [⟨toL "m", toL "t", none, none, none⟩]).1 =
      ([⟨toL "m", toL "t", none, none, none⟩] : List POEntry).flatMap
        (fun e => [fmt_text e.msgid, '\t' :: e.msgstr]) ∧
    splitOnChar '\n' (format_entries [⟨toL "m", toL "t", none, none, none⟩]).2.1 =
      ([⟨toL "m", toL "t", none, none, none⟩] : List POEntry).map (fun e => pyStrip e.msgstr) ∧
    splitOnChar '\n' (format_entries [⟨toL "m", toL "t", none, none, none⟩]).2.2 =
      ([⟨toL "m", toL "t", none, none, none⟩] : List POEntry).flatMap
        (fun e => [e.msgstr, '\t' :: fmt_text e.msgid]) :=
  C8_format_entries_exports [⟨toL "m", toL "t", none, none, none⟩]
    (by decide) (by decide)

theorem anchor_line_of_ends {q : Nat × List Char} (uids : Nat → List Char)
    (h : endsWithChar emDash (pyStrip q.2) = true) : anchor_line uids q = q.2 := by
  unfold anchor_line
  simp [h]

theorem anchor_line_of_not_ends {q : Nat × List Char} (uids : Nat → List Char)
    (h : endsWithChar emDash (pyStrip q.2) = false) :
    anchor_line uids q = pyStrip q.2 ++ emDash :: (uids q.1 ++ [emDash]) := by
  unfold anchor_line
  simp [h]

theorem not_mem_anchor_line {c : Char} {q : Nat × List Char} {uids : Nat → List Char}
    (hline : c ∉ q.2) (hu : c ∉ uids q.1) (hem : c ≠ emDash) :
    c ∉ anchor_line uids q := by
  by_cases hcond : endsWithChar emDash (pyStrip q.2)
  · rw [anchor_line_of_ends uids hcond]
    exact hline
  · rw [anchor_line_of_not_ends uids (by simpa using hcond)]
    intro hmem
    rcases List.mem_append.mp hmem with h1 | h2
    · exact hline (mem_pyStrip h1)
    · rcases List.mem_cons.mp h2 with h3 | h4
      · exact hem h3
      · rcases List.mem_append.mp h4 with h5 | h6
        · exact hu h5
        · rcases List.mem_cons.mp h6 with h7 | h8
          · exact hem h7
          · simp at h8

theorem add_missing_uuids_eq_join (uids : Nat → List Char) (dump : List Char) :
    add_missing_uuids uids dump =
      joinWith '\n' ((splitOnChar '\n' (pyStrip dump)).enum.map (anchor_line uids)) :=
  rfl

theorem enum_anchor_lines_ne_nil (uids : Nat → List Char) (dump : List Char) :
    (splitOnChar '\n' (pyStrip dump)).enum.map (anchor_line uids) ≠ [] := by
  cases hl : splitOnChar '\n' (pyStrip dump) with
  | nil => exact absurd hl (splitOnChar_ne_nil '\n' (pyStrip dump))
  | cons a L => simp [List.enum_cons]

theorem enum_anchor_lines_newline_free {uids : Nat → List Char} (dump : List Char)
    (hnl : ∀ m, '\n' ∉ uids m) :
    ∀ x ∈ (splitOnChar '\n' (pyStrip dump)).enum.map (anchor_line uids), '\n' ∉ x := by
  intro x hx
  rcases List.mem_map.mp hx with ⟨q, hq, hqx⟩
  have hq2 : q.2 ∈ splitOnChar '\n' (pyStrip dump) := by
    rw [List.enum_eq_enumFrom] at hq
    exact snd_mem_of_mem_enumFrom hq
  rw [← hqx]
  exact not_mem_anchor_line (not_mem_of_mem_splitOnChar hq2) (hnl q.1) (by decide)

theorem splitOnChar_add_missing_uuids (uids : Nat → List Char) (dump : List Char)
    (hnl : ∀ m, '\n' ∉ uids m) :
    splitOnChar '\n' (add_missing_uuids uids dump) =
      (splitOnChar '\n' (pyStrip dump)).enum.map (anchor_line uids) := by
  rw [add_missing_uuids_eq_join]
  exact splitOnChar_joinWith _ (enum_anchor_lines_ne_nil uids dump)
    (enum_anchor_lines_newline_free dump hnl)

/-- C4 counterexample: in the document "a \nabc— \nd", the line "abc— " does
not end with the anchor delimiter (it ends with a space) yet
`add_missing_uuids` leaves it untouched, and the line "a " receives its
anchor appended to its stripped form "a", not to the line itself — so the
claim's description of which lines are extended, and of what is appended to
them, fails without the whitespace-trimming qualification. -/
theorem C4_counterexample_trailing_space :
    endsWithChar emDash (toL "abc— ") = false ∧
    (splitOnChar '\n' (add_missing_uuids
      (fun _ => toL "0123456789abcdef0123456789abcdef") (toL "a \nabc— \nd")))[1]? =
      some (toL "abc— ") ∧
    endsWithChar emDash (toL "a ") = false ∧
    (splitOnChar '\n' (add_missing_uuids
      (fun _ => toL "0123456789abcdef0123456789abcdef") (toL "a \nabc— \nd")))[0]? =
      some (toL "a—0123456789abcdef0123456789abcdef—") ∧
    toL "a—0123456789abcdef0123456789abcdef—" ≠
      toL "a " ++ emDash :: (toL "0123456789abcdef0123456789abcdef" ++ [emDash]) := by
  decide

/-- C4 (amended): for every document and uuid supply, `add_missing_uuids`
appends a freshly generated delimiter-bounded anchor (the verbatim 32-digit
hex `uuid4().hex`) to the whitespace-trimmed form of every line whose trimmed
form does not end with the anchor delimiter, performs no uniqueness check
against existing anchors (the characterization holds for every supply,
including colliding ones), and leaves every line whose trimmed form already
ends with the delimiter untouched. -/
theorem C4_add_missing_uuids_characterization (uids : Nat → List Char)
    (dump : List Char)
    (hu : ∀ n, (uids n).length = 32 ∧ ∀ c ∈ uids n, isHexDigit c = true) :
    ∀ n : Nat,
      (splitOnChar '\n' (add_missing_uuids uids dump))[n]? =
        ((splitOnChar '\n' (pyStrip dump))[n]?).map (fun l =>
          if endsWithChar emDash (pyStrip l) then l
          else pyStrip l ++ emDash :: (uids n ++ [emDash])) := by
  intro n
  have hnl : ∀ m : Nat, '\n' ∉ uids m := by
    intro m hmem
    have hh := (hu m).2 '\n' hmem
    exact absurd hh (by decide)
  rw [splitOnChar_add_missing_uuids uids dump hnl, List.getElem?_map,
    List.enum_eq_enumFrom, List.getElem?_enumFrom]
  cases hl : (splitOnChar '\n' (pyStrip dump))[n]? with
  | none => rfl
  | some l =>
    simp only [Option.map_some']
    by_cases hcond : endsWithChar emDash (pyStrip l)
    · rw [anchor_line_of_ends uids hcond, if_pos hcond]
    · rw [anchor_line_of_not_ends uids (by simpa using hcond),
        if_neg (by simpa using hcond)]
      simp

theorem C4_add_missing_uuids_characterization_witness :
    (splitOnChar '\n' (add_missing_uuids
      (fun _ => toL "0123456789abcdef0123456789abcdef") (toL "hi")))[0]? =
      ((splitOnChar '\n' (pyStrip (toL "hi")))[0]?).map (fun l =>
        if endsWithChar emDash (pyStrip l) then l
        else pyStrip l ++ emDash ::
          ((fun _ : Nat => toL "0123456789abcdef0123456789abcdef") 0 ++ [emDash])) :=
  C4_add_missing_uuids_characterization
    (fun _ => toL "0123456789abcdef0123456789abcdef") (toL "hi")
    (fun _ => by
      show (toL "0123456789abcdef0123456789abcdef").length = 32 ∧
        ∀ c ∈ toL "0123456789abcdef0123456789abcdef", isHexDigit c = true
      decide) 0

theorem dropWhile_append_single {c : Char} (hc : isPySpace c = false) (t : List Char) :
    (t ++ [c]).dropWhile isPySpace = t.dropWhile isPySpace ++ [c] := by
  rw [List.dropWhile_append]
  split
  · next he =>
    rw [List.isEmpty_iff] at he
    rw [he, List.dropWhile_cons_of_neg (by simp [hc]), List.nil_append]
  · rfl

theorem pyStrip_eq_dropWhile_of_endsWith {c : Char} (hc : isPySpace c = false)
    {s : List Char} (h : endsWithChar c s = true) :
    pyStrip s = s.dropWhile isPySpace := by
  obtain ⟨t, rfl⟩ := endsWithChar_iff.mp h
  rw [pyStrip_append_single hc, dropWhile_append_single hc]

theorem endsWithChar_pyStrip {c : Char} (hc : isPySpace c = false)
    {s : List Char} (h : endsWithChar c s = true) :
    endsWithChar c (pyStrip s) = true := by
  obtain ⟨t, rfl⟩ := endsWithChar_iff.mp h
  rw [pyStrip_append_single hc]
  exact endsWithChar_append_self c _

theorem endsWithChar_append_right {c : Char} (s : List Char) {t : List Char}
    (h : endsWithChar c t = true) : endsWithChar c (s ++ t) = true := by
  unfold endsWithChar at h ⊢
  rw [List.getLast?_append]
  cases hg : t.getLast? with
  | none => rw [hg] at h; simp at h
  | some a =>
    rw [hg] at h
    have hac : (a == c) = true := by simpa using h
    exact hac

theorem endsWith_joinWith {c sep : Char} :
    ∀ (L : List (List Char)), L ≠ [] → (∀ l ∈ L, endsWithChar c l = true) →
    endsWithChar c (joinWith sep L) = true
  | [], h, _ => absurd rfl h
  | [l], _, hall => by
    rw [joinWith_single]
    exact hall l (by simp)
  | l :: m :: L, _, hall => by
    have ih := @endsWith_joinWith c sep (m :: L) (by simp)
      (fun x hx => hall x (List.mem_cons_of_mem l hx))
    rw [joinWith_cons₂]
    have hshape : l ++ sep :: joinWith sep (m :: L) =
        (l ++ [sep]) ++ joinWith sep (m :: L) := by simp
    rw [hshape]
    exact endsWithChar_append_right _ ih

theorem strip_lines_anchored {d : List Char}
    (h : ∀ l ∈ splitOnChar '\n' d, endsWithChar emDash l = true) :
    ∀ l ∈ splitOnChar '\n' (pyStrip d), endsWithChar emDash (pyStrip l) = true := by
  cases hL : splitOnChar '\n' d with
  | nil => exact absurd hL (splitOnChar_ne_nil '\n' d)
  | cons l0 rest =>
    have hd : d = joinWith '\n' (l0 :: rest) := by
      rw [← hL, joinWith_splitOnChar]
    have h0 : endsWithChar emDash l0 = true :=
      h l0 (by rw [hL]; exact List.mem_cons_self _ _)
    have hrest : ∀ l ∈ rest, endsWithChar emDash l = true :=
      fun l hl => h l (by rw [hL]; exact List.mem_cons_of_mem _ hl)
    have hnlfree : ∀ l ∈ l0 :: rest, '\n' ∉ l := by
      intro l hl
      exact not_mem_of_mem_splitOnChar (by rw [hL]; exact hl)
    obtain ⟨t0, ht0⟩ := endsWithChar_iff.mp h0
    have hstrip : pyStrip d = joinWith '\n' (l0.dropWhile isPySpace :: rest) := by
      cases rest with
      | nil =>
        rw [hd, joinWith_single, joinWith_single, ht0,
          pyStrip_append_single emDash_not_space,
          dropWhile_append_single emDash_not_space]
      | cons r1 rest' =>
        have hdend : endsWithChar emDash d = true := by
          rw [hd]
          exact endsWith_joinWith (l0 :: r1 :: rest') (by simp)
            (fun x hx => h x (by rw [hL]; exact hx))
        rw [pyStrip_eq_dropWhile_of_endsWith emDash_not_space hdend, hd,
          joinWith_cons₂, joinWith_cons₂]
        exact dropWhile_append_of_ne _
          ⟨emDash, by rw [ht0]; simp, emDash_not_space⟩
    have hlines : splitOnChar '\n' (pyStrip d) = l0.dropWhile isPySpace :: rest := by
      rw [hstrip]
      apply splitOnChar_joinWith
      · simp
      · intro x hx
        rcases List.mem_cons.mp hx with h1 | h2
        · rw [h1]
          exact fun hm => hnlfree l0 (List.mem_cons_self _ _) (mem_dropWhile_imp hm)
        · exact hnlfree x (List.mem_cons_of_mem _ h2)
    rw [hlines]
    intro l hl
    rcases List.mem_cons.mp hl with h1 | h2
    · rw [h1]
      apply endsWithChar_pyStrip emDash_not_space
      rw [ht0, dropWhile_append_single emDash_not_space]
      exact endsWithChar_append_self emDash _
    · exact endsWithChar_pyStrip emDash_not_space (hrest l h2)

theorem add_missing_uuids_of_anchored (u : Nat → List Char) (x : List Char)
    (hx : ∀ l ∈ splitOnChar '\n' (pyStrip x), endsWithChar emDash (pyStrip l) = true) :
    add_missing_uuids u x = pyStrip x := by
  rw [add_missing_uuids_eq_join]
  have hmap : (splitOnChar '\n' (pyStrip x)).enum.map (anchor_line u) =
      splitOnChar '\n' (pyStrip x) := by
    rw [List.enum_eq_enumFrom]
    apply map_enumFrom_eq_self
    intro q hq
    exact anchor_line_of_ends u (hx q.2 (snd_mem_of_mem_enumFrom hq))
  rw [hmap, joinWith_splitOnChar]

/-- C5: on a document in which every line already ends with the anchor
delimiter, a second application of `add_missing_uuids` returns the once
processed document unchanged, for every pair of uuid supplies. -/
theorem C5_add_missing_uuids_idempotent (uids1 uids2 : Nat → List Char)
    (d : List Char)
    (h : ∀ l ∈ splitOnChar '\n' d, endsWithChar emDash l = true) :
    add_missing_uuids uids2 (add_missing_uuids uids1 d) =
      add_missing_uuids uids1 d := by
  have hb := strip_lines_anchored h
  have h1 : add_missing_uuids uids1 d = pyStrip d :=
    add_missing_uuids_of_anchored uids1 d hb
  have hb2 : ∀ l ∈ splitOnChar '\n' (pyStrip (pyStrip d)),
      endsWithChar emDash (pyStrip l) = true := by
    rw [pyStrip_idem]
    exact hb
  rw [h1, add_missing_uuids_of_anchored uids2 (pyStrip d) hb2, pyStrip_idem]

theorem C5_add_missing_uuids_idempotent_witness :
    add_missing_uuids (fun _ => toL "beef")
      (add_missing_uuids (fun _ => toL "dead") (toL "x—\ny—")) =
      add_missing_uuids (fun _ => toL "dead") (toL "x—\ny—") :=
  C5_add_missing_uuids_idempotent (fun _ => toL "dead") (fun _ => toL "beef")
    (toL "x—\ny—") (by decide)

theorem mem_joinWith_of_mem {c : Char} :
    ∀ {L : List (List Char)} {l : List Char} {x : Char},
    l ∈ L → x ∈ l → x ∈ joinWith c L
  | [], l, _, hl, _ => absurd hl (List.not_mem_nil l)
  | [m], l, x, hl, hx => by
    rw [joinWith_single]
    have hlm : l = m := List.mem_singleton.mp hl
    exact hlm ▸ hx
  | m :: m2 :: L, l, x, hl, hx => by
    rw [joinWith_cons₂]
    rcases List.mem_cons.mp hl with h1 | h2
    · exact List.mem_append_left _ (h1 ▸ hx)
    · exact List.mem_append_right _
        (List.mem_cons_of_mem _ (mem_joinWith_of_mem h2 hx))

theorem mem_of_mem_splitOnChar {c x : Char} {s l : List Char}
    (hl : l ∈ splitOnChar c s) (hx : x ∈ l) : x ∈ s := by
  have hj := @mem_joinWith_of_mem c (splitOnChar c s) l x hl hx
  rwa [joinWith_splitOnChar] at hj

theorem getLast?_of_endsWith {c : Char} {s : List Char}
    (h : endsWithChar c s = true) : s.getLast? = some c := by
  obtain ⟨t, rfl⟩ := endsWithChar_iff.mp h
  exact List.getLast?_concat t

theorem endsWith_anchor (x u : List Char) :
    endsWithChar emDash (x ++ emDash :: (u ++ [emDash])) = true := by
  have hshape : x ++ emDash :: (u ++ [emDash]) = (x ++ emDash :: u) ++ [emDash] := by
    simp
  rw [hshape]
  exact endsWithChar_append_self emDash _

theorem head?_anchor_not_space {w u : List Char} {a : Char}
    (ha : (pyStrip w ++ emDash :: (u ++ [emDash])).head? = some a) :
    isPySpace a = false := by
  cases hps : pyStrip w with
  | nil =>
    rw [hps] at ha
    simp at ha
    rw [← ha]
    exact emDash_not_space
  | cons b t =>
    rw [hps] at ha
    simp at ha
    rw [← ha]
    exact head?_pyStrip_false (by rw [hps]; rfl)

theorem pyStrip_anchor (w u : List Char) :
    pyStrip (pyStrip w ++ emDash :: (u ++ [emDash])) =
      pyStrip w ++ emDash :: (u ++ [emDash]) := by
  apply pyStrip_eq_self
  · intro a ha
    exact head?_anchor_not_space ha
  · intro a ha
    rw [getLast?_of_endsWith (endsWith_anchor _ u)] at ha
    have haem : a = emDash := by simpa using ha.symm
    rw [haem]
    exact emDash_not_space

theorem countChar_anchor {w u : List Char} (hw : emDash ∉ w) (hu : emDash ∉ u) :
    countChar emDash (pyStrip w ++ emDash :: (u ++ [emDash])) = 2 := by
  have hw2 : emDash ∉ pyStrip w := fun hm => hw (mem_pyStrip hm)
  simp [countChar_append, countChar_cons, countChar_nil,
    countChar_eq_zero hw2, countChar_eq_zero hu]

theorem remove_extra_uuid_anchor {w u : List Char} (hw : emDash ∉ w) (hu : emDash ∉ u) :
    remove_extra_uuid (pyStrip w ++ emDash :: (u ++ [emDash])) =
      pyStrip w ++ emDash :: (u ++ [emDash]) := by
  simp only [remove_extra_uuid]
  rw [countChar_anchor hw hu, if_neg (by omega)]

theorem parse_line_anchor {w u : List Char} (hw : emDash ∉ w) (hu : emDash ∉ u) :
    parse_line (pyStrip w ++ emDash :: (u ++ [emDash])) = some (pyStrip w, u) := by
  have hw2 : emDash ∉ pyStrip w := fun hm => hw (mem_pyStrip hm)
  unfold parse_line
  have hshape : pyStrip w ++ emDash :: (u ++ [emDash]) =
      (pyStrip w ++ emDash :: u) ++ [emDash] := by simp
  rw [hshape, List.dropLast_concat]
  have h2 : splitOnChar emDash (emDash :: u) = [] :: [u] := by
    rw [splitOnChar_cons_self, splitOnChar_of_not_mem hu]
  have h3 := splitOnChar_append_left (pyStrip w) (emDash :: u) hw2 [] [u] h2
  rw [List.append_nil] at h3
  rw [h3]

theorem head?_joinWith_cons (c : Char) (m0 : List Char) (M : List (List Char))
    (hne : m0 ≠ []) : (joinWith c (m0 :: M)).head? = m0.head? := by
  cases M with
  | nil => rw [joinWith_single]
  | cons m1 Mtail =>
    rw [joinWith_cons₂]
    cases m0 with
    | nil => exact absurd rfl hne
    | cons b t => rfl

theorem mapM_option_some {α β : Type} (f : α → Option β) :
    ∀ (l : List α), (∀ a ∈ l, ∃ b, f a = some b) → ∃ bs, l.mapM f = some bs
  | [], _ => ⟨[], rfl⟩
  | a :: l, h => by
    obtain ⟨b, hb⟩ := h a (List.mem_cons_self a l)
    obtain ⟨bs, hbs⟩ := mapM_option_some f l (fun x hx => h x (List.mem_cons_of_mem a hx))
    exact ⟨b :: bs, by rw [List.mapM_cons, hb, hbs]; rfl⟩

/-- C1 counterexample: with no persisted file, the raw one-line source text
"a—" already ends with the delimiter, so it is neither re-anchored nor
repaired (one delimiter only), and the final parse into a (text, anchor)
pair fails: the claimed guarantee does not hold for every raw source text. -/
theorem C1_counterexample_preanchored_line :
    generate_entries (fun _ t => t) none
      (fun _ => toL "0123456789abcdef0123456789abcdef") (toL "a—") = none := by
  decide

/-- C1 (amended): on a first run (no persisted unit file) over a raw source
text containing no anchor delimiter, after anchor assignment and duplicate
repair every processed line carries exactly one anchor (two delimiters), and
the final parse of every line into a (text, anchor) pair succeeds, so
`generate_entries` never fails. -/
theorem C1_generate_entries_wellformed (f : List Char → List Char → List Char)
    (uids : Nat → List Char) (dump : List Char)
    (hdump : emDash ∉ dump)
    (hu : ∀ n, (uids n).length = 32 ∧ ∀ c ∈ uids n, isHexDigit c = true) :
    (∀ l ∈ corrected_lines uids (resolved_dump f none dump),
      countChar emDash l = 2) ∧
    ∃ es, generate_entries f none uids dump = some es := by
  have hnl : ∀ m : Nat, '\n' ∉ uids m := fun m hmem =>
    absurd ((hu m).2 '\n' hmem) (by decide)
  have hemu : ∀ m : Nat, emDash ∉ uids m := fun m hmem =>
    absurd ((hu m).2 emDash hmem) (by decide)
  have hlineem : ∀ l ∈ splitOnChar '\n' (pyStrip dump), emDash ∉ l := by
    intro l hl hm
    exact hdump (mem_pyStrip (mem_of_mem_splitOnChar hl hm))
  have hsnd : ∀ q ∈ (splitOnChar '\n' (pyStrip dump)).enum,
      q.2 ∈ splitOnChar '\n' (pyStrip dump) := by
    intro q hq
    rw [List.enum_eq_enumFrom] at hq
    exact snd_mem_of_mem_enumFrom hq
  have hAL : ∀ q ∈ (splitOnChar '\n' (pyStrip dump)).enum, anchor_line uids q =
      pyStrip q.2 ++ emDash :: (uids q.1 ++ [emDash]) := by
    intro q hq
    apply anchor_line_of_not_ends
    apply endsWithChar_eq_false_of_not_mem
    intro hm
    exact hlineem q.2 (hsnd q hq) (mem_pyStrip hm)
  set M := (splitOnChar '\n' (pyStrip dump)).enum.map (anchor_line uids) with hM
  have hMends : ∀ x ∈ M, endsWithChar emDash x = true := by
    intro x hx
    rcases List.mem_map.mp hx with ⟨q, hq, hqx⟩
    rw [← hqx, hAL q hq]
    exact endsWith_anchor _ _
  have hMne : M ≠ [] := enum_anchor_lines_ne_nil uids dump
  have hstrip : pyStrip (add_missing_uuids uids dump) =
      add_missing_uuids uids dump := by
    rw [add_missing_uuids_eq_join, ← hM]
    apply pyStrip_eq_self
    · intro a ha
      cases hMcase : M with
      | nil => exact absurd hMcase hMne
      | cons m0 Mtail =>
        have hm0 : m0 ∈ M := by rw [hMcase]; exact List.mem_cons_self _ _
        rcases List.mem_map.mp hm0 with ⟨q, hq, hqm⟩
        have hform := hAL q hq
        have hm0ne : m0 ≠ [] := by
          rw [← hqm, hform]
          intro hnil
          have hlen := congrArg List.length hnil
          simp at hlen
        rw [hMcase, head?_joinWith_cons '\n' m0 Mtail hm0ne] at ha
        rw [← hqm, hform] at ha
        exact head?_anchor_not_space ha
    · intro a ha
      rw [getLast?_of_endsWith (endsWith_joinWith M hMne hMends)] at ha
      have haem : a = emDash := by simpa using ha.symm
      rw [haem]
      exact emDash_not_space
  have hsplit2 : splitOnChar '\n' (pyStrip (add_missing_uuids uids dump)) = M := by
    rw [hstrip]
    exact splitOnChar_add_missing_uuids uids dump hnl
  have hfix : ∀ x ∈ M, remove_extra_uuid (pyStrip x) = x := by
    intro x hx
    rcases List.mem_map.mp hx with ⟨q, hq, hqx⟩
    have hwem : emDash ∉ q.2 := hlineem q.2 (hsnd q hq)
    rw [← hqx, hAL q hq, pyStrip_anchor, remove_extra_uuid_anchor hwem (hemu q.1)]
  have hcorr : corrected_lines uids dump = M := by
    unfold corrected_lines
    rw [hsplit2, List.map_congr_left hfix, List.map_id']
  constructor
  · intro l hl
    have hl2 : l ∈ M := by
      rw [← hcorr]
      exact hl
    rcases List.mem_map.mp hl2 with ⟨q, hq, hqx⟩
    rw [← hqx, hAL q hq]
    exact countChar_anchor (hlineem q.2 (hsnd q hq)) (hemu q.1)
  · show ∃ es, (corrected_lines uids (resolved_dump f none dump)).mapM parse_line =
      some es
    have hres : resolved_dump f none dump = dump := rfl
    rw [hres, hcorr]
    apply mapM_option_some
    intro x hx
    rcases List.mem_map.mp hx with ⟨q, hq, hqx⟩
    refine ⟨(pyStrip q.2, uids q.1), ?_⟩
    rw [← hqx, hAL q hq]
    exact parse_line_anchor (hlineem q.2 (hsnd q hq)) (hemu q.1)

theorem C1_generate_entries_wellformed_witness :
    (∀ l ∈ corrected_lines (fun _ => toL "0123456789abcdef0123456789abcdef")
      (resolved_dump (fun _ t => t) none (toL "hello\nworld")),
      countChar emDash l = 2) ∧
    ∃ es, generate_entries (fun _ t => t) none
      (fun _ => toL "0123456789abcdef0123456789abcdef") (toL "hello\nworld") =
        some es :=
  C1_generate_entries_wellformed (fun _ t => t)
    (fun _ => toL "0123456789abcdef0123456789abcdef") (toL "hello\nworld")
    (by decide)
    (fun _ => by
      show (toL "0123456789abcdef0123456789abcdef").length = 32 ∧
        ∀ c ∈ toL "0123456789abcdef0123456789abcdef", isHexDigit c = true
      decide)

theorem C10_write_txt_pars_frame_witness :
    write_txt_pars (fun _ t => t) true (toL "a\n\n\nb") (toL "x") (toL "a\nb") =
      toL "a\n\n\nb" :=
  (C10_write_txt_pars_frame (fun _ t => t) (toL "a\n\n\nb") (toL "x")
    (toL "a\nb")).1 (by decide)
